import Mathlib

/-
Verification of the streaming query-result reader: `runQuery`,
`processResponse` and `trimPartialLines`.

Modelling choices:
  * a byte is a `Nat` (values 0..255 as delivered by the platform);
  * a JS string is a `List Char`;
  * the response body is a `List (List Nat)`: the chunks, in arrival order,
    that `reader.read()` yields before the end-of-stream signal;
  * `TextDecoder` is embedded by the WHATWG UTF-8 decoder with replacement
    (non-fatal mode, BOM stripping).  The source calls `decoder.decode(chunk)`
    WITHOUT the `stream: true` option, so every call is a complete decode
    operation: the embedding applies `decodeUtf8` to each chunk separately,
    with no state carried between chunks — exactly what the code does.
-/

namespace QueryReader

/-- The Unicode replacement character emitted by the decoder on error. -/
def replacementChar : Char := '�'

/-- State of the WHATWG UTF-8 decoder between bytes of one decode call. -/
structure DecoderState where
  codePoint : Nat
  bytesNeeded : Nat
  bytesSeen : Nat
  lowerBoundary : Nat
  upperBoundary : Nat
deriving DecidableEq, Repr

/-- Initial decoder state. -/
def initState : DecoderState := ⟨0, 0, 0, 0x80, 0xBF⟩

/-- Handle one byte in the initial decoder state (`bytes needed = 0` branch of
the WHATWG UTF-8 decoder): emit an ASCII character, open a multi-byte
sequence, or emit a replacement character. -/
def utf8Start (b : Nat) : List Char × DecoderState :=
  if b ≤ 0x7F then ([Char.ofNat b], initState)
  else if 0xC2 ≤ b ∧ b ≤ 0xDF then ([], ⟨b % 32, 1, 0, 0x80, 0xBF⟩)
  else if 0xE0 ≤ b ∧ b ≤ 0xEF then
    ([], ⟨b % 16, 2, 0, if b = 0xE0 then 0xA0 else 0x80,
          if b = 0xED then 0x9F else 0xBF⟩)
  else if 0xF0 ≤ b ∧ b ≤ 0xF4 then
    ([], ⟨b % 8, 3, 0, if b = 0xF0 then 0x90 else 0x80,
          if b = 0xF4 then 0x8F else 0xBF⟩)
  else ([replacementChar], initState)

/-- Run the WHATWG UTF-8 decoder over a byte list.  A continuation byte out
of range emits a replacement character and reprocesses the byte in the
initial state; a dangling incomplete sequence at end of input emits one
replacement character. -/
def utf8Run : List Nat → DecoderState → List Char
  | [], st => if st.bytesNeeded = 0 then [] else [replacementChar]
  | b :: rest, st =>
    if st.bytesNeeded = 0 then
      let p := utf8Start b
      p.1 ++ utf8Run rest p.2
    else if b < st.lowerBoundary ∨ st.upperBoundary < b then
      let p := utf8Start b
      replacementChar :: (p.1 ++ utf8Run rest p.2)
    else
      let cp := st.codePoint * 64 + b % 64
      if st.bytesSeen + 1 = st.bytesNeeded then
        Char.ofNat cp :: utf8Run rest initState
      else
        utf8Run rest ⟨cp, st.bytesNeeded, st.bytesSeen + 1, 0x80, 0xBF⟩

/-- Strip a leading byte-order mark, as the WHATWG "UTF-8 decode" hook does
at the start of every non-streaming decode call. -/
def stripBom : List Nat → List Nat
  | 0xEF :: 0xBB :: 0xBF :: rest => rest
  | bytes => bytes

/-- One non-streaming call `new TextDecoder().decode(bytes)`: BOM stripping
followed by the UTF-8 decoder with replacement. -/
def decodeUtf8 (bytes : List Nat) : List Char :=
  utf8Run (stripBom bytes) initState

/-- Backward scan of `trimPartialLines`: starting at index `i`, walk toward
index 0 looking for a newline; `some j` is the index of the newline found
(the last one at or before `i`), `none` means the scan hit the front without
finding one (the JS loop then returns the whole string unchanged).  The JS
read `partialResp[i] !== '\n'` — with `undefined` for an out-of-range index —
is `s[i]? = some '\n'` on the option-valued index. -/
def trimLoop (s : List Char) : Nat → Option Nat
  | 0 => if s[0]? = some '\n' then some 0 else none
  | i + 1 => if s[i + 1]? = some '\n' then some (i + 1) else trimLoop s i

/-- The source's `trimPartialLines`: scan backward from the last character for
a newline; if one is found at index `i` return `s.slice(0, i + 1)`, otherwise
return the string unchanged. -/
def trimPartialLines (s : List Char) : List Char :=
  match trimLoop s (s.length - 1) with
  | some i => s.take (i + 1)
  | none => s

/-- Modelled from the spec: "given a text fragment, return the longest prefix
ending at (and including) the last newline character"; "a fragment with no
newline returns the fragment unchanged".  Dropping the trailing run of
non-newline characters keeps everything up to and including the last
newline. -/
def trimSpec (s : List Char) : List Char :=
  if '\n' ∈ s then (s.reverse.dropWhile (fun c => c != '\n')).reverse else s

/-- The source's `RunQueryResult`. -/
structure RunQueryResult where
  csv : List Char
  didTruncate : Bool
  bytesRead : Nat
deriving DecidableEq, Repr

/-- The read loop of `processResponse`, all chunks delivered then a clean
end-of-stream.  Each chunk is decoded by a fresh non-streaming decode call,
its byte length is added to the counter, and if the counter now exceeds the
cap the chunk's decoded text is trimmed at its last newline, the truncation
flag is set and the loop breaks; otherwise the text is appended whole and
the loop continues. -/
def processLoop (limit : Nat) : List (List Nat) → List Char → Nat → RunQueryResult
  | [], csv, bytesRead => ⟨csv, false, bytesRead⟩
  | chunk :: rest, csv, bytesRead =>
    if limit < bytesRead + chunk.length then
      ⟨csv ++ trimPartialLines (decodeUtf8 chunk), true, bytesRead + chunk.length⟩
    else
      processLoop limit rest (csv ++ decodeUtf8 chunk) (bytesRead + chunk.length)

/-- `processResponse` on a fully delivered body: run the loop from an empty
accumulator and a zero byte counter.  `limit` is the externally supplied
constant `FLUX_RESPONSE_BYTES_LIMIT`. -/
def processResponse (limit : Nat) (chunks : List (List Nat)) : RunQueryResult :=
  processLoop limit chunks [] 0

/-- Outcome of the read that ends the chunk sequence: a clean end-of-stream
signal, a rejection of `reader.read()` with a transport error, or a rejection
with `AbortError` after the caller triggered `controller.abort()`. -/
inductive EndEvent
  | done
  | fail
  | abort
deriving DecidableEq, Repr

/-- The read loop of `processResponse` over a body whose chunk sequence ends
with `ending`, also recording how often `reader.cancel()` runs.  The source
has no try/finally: `reader.cancel()` is only reached by falling out of the
loop (end-of-stream) or by the truncation `break`; a rejected read makes the
async function throw past it.  The second component counts the
`reader.cancel()` calls on the taken path. -/
def processLoopEv (limit : Nat) :
    List (List Nat) → EndEvent → List Char → Nat → Except EndEvent RunQueryResult × Nat
  | [], ending, csv, bytesRead =>
    match ending with
    | .done => (.ok ⟨csv, false, bytesRead⟩, 1)
    | e => (.error e, 0)
  | chunk :: rest, ending, csv, bytesRead =>
    if limit < bytesRead + chunk.length then
      (.ok ⟨csv ++ trimPartialLines (decodeUtf8 chunk), true, bytesRead + chunk.length⟩, 1)
    else
      processLoopEv limit rest ending (csv ++ decodeUtf8 chunk) (bytesRead + chunk.length)

/-- The two error kinds the transfer's result producer can settle with. -/
inductive QueryError
  | cancellation
  | transport
deriving DecidableEq, Repr

/-- The settling of the promise returned by `runQuery`: the result of
`processResponse`, with the `.catch` clause mapping an `AbortError` rejection
to a `CancellationError` and passing any other rejection through. -/
def runQueryOutcome (limit : Nat) (chunks : List (List Nat)) (ending : EndEvent) :
    Except QueryError RunQueryResult :=
  match (processLoopEv limit chunks ending [] 0).1 with
  | .ok r => .ok r
  | .error .abort => .error .cancellation
  | .error _ => .error .transport

/-- The spec's sample payload "a,b\nc,d\ne,f\n" as its 12 UTF-8 bytes. -/
def sampleBytes : List Nat := "a,b\nc,d\ne,f\n".toList.map Char.toNat

/-! ### Lemmas about the line-boundary scanner -/

theorem trimLoop_eq_some_of_getElem (s : List Char) (i : Nat) (h : s[i]? = some '\n') :
    trimLoop s i = some i := by
  cases i with
  | zero => rw [trimLoop, if_pos h]
  | succ n => rw [trimLoop, if_pos h]

theorem trimLoop_succ_of_ne (s : List Char) (i : Nat) (h : ¬s[i + 1]? = some '\n') :
    trimLoop s (i + 1) = trimLoop s i := by
  rw [trimLoop, if_neg h]

theorem trimLoop_concat (xs : List Char) (x : Char) :
    ∀ i, i < xs.length → trimLoop (xs ++ [x]) i = trimLoop xs i := by
  intro i
  induction i with
  | zero =>
    intro h
    rw [trimLoop, trimLoop, List.getElem?_append, if_pos h]
  | succ n ih =>
    intro h
    rw [trimLoop, trimLoop, List.getElem?_append, if_pos h]
    by_cases hc : xs[n + 1]? = some '\n'
    · rw [if_pos hc, if_pos hc]
    · rw [if_neg hc, if_neg hc]
      exact ih (Nat.lt_of_succ_lt h)

theorem trimLoop_le (s : List Char) : ∀ i j, trimLoop s i = some j → j ≤ i := by
  intro i
  induction i with
  | zero =>
    intro j h
    by_cases hc : s[0]? = some '\n'
    · rw [trimLoop, if_pos hc] at h
      injection h with h
      omega
    · rw [trimLoop, if_neg hc] at h
      cases h
  | succ n ih =>
    intro j h
    by_cases hc : s[n + 1]? = some '\n'
    · rw [trimLoop, if_pos hc] at h
      injection h with h
      omega
    · rw [trimLoop_succ_of_ne s n hc] at h
      exact Nat.le_trans (ih j h) (Nat.le_succ n)

theorem getElem?_ne_newline (s : List Char) (hs : '\n' ∉ s) (j : Nat) :
    ¬s[j]? = some '\n' := by
  intro h
  exact hs (List.getElem?_mem h)

theorem trimLoop_eq_none (s : List Char) (hs : '\n' ∉ s) : ∀ i, trimLoop s i = none := by
  intro i
  induction i with
  | zero => rw [trimLoop, if_neg (getElem?_ne_newline s hs 0)]
  | succ n ih => rw [trimLoop, if_neg (getElem?_ne_newline s hs (n + 1)), ih]

theorem trimLoop_none_getElem (s : List Char) :
    ∀ i, trimLoop s i = none → ∀ j, j ≤ i → ¬s[j]? = some '\n' := by
  intro i
  induction i with
  | zero =>
    intro h j hj hc
    obtain rfl : j = 0 := Nat.le_zero.mp hj
    rw [trimLoop_eq_some_of_getElem s 0 hc] at h
    cases h
  | succ n ih =>
    intro h j hj hc
    by_cases hj' : j = n + 1
    · subst hj'
      rw [trimLoop_eq_some_of_getElem s _ hc] at h
      cases h
    · have hd : ¬s[n + 1]? = some '\n' := by
        intro hd
        rw [trimLoop_eq_some_of_getElem s _ hd] at h
        cases h
      rw [trimLoop_succ_of_ne s n hd] at h
      exact ih h j (by omega) hc

theorem trimLoop_ne_none_of_mem (s : List Char) (hs : '\n' ∈ s) :
    trimLoop s (s.length - 1) ≠ none := by
  obtain ⟨n, hn⟩ := (List.mem_iff_getElem? (l := s)).mp hs
  intro h
  have hlt : n < s.length := by
    by_contra hge
    rw [List.getElem?_eq_none (Nat.le_of_not_lt hge)] at hn
    cases hn
  exact trimLoop_none_getElem s (s.length - 1) h n (by omega) hn

theorem trim_of_not_mem (s : List Char) (hs : '\n' ∉ s) : trimPartialLines s = s := by
  unfold trimPartialLines
  rw [trimLoop_eq_none s hs]

theorem trim_concat_newline (xs : List Char) : trimPartialLines (xs ++ ['\n']) = xs ++ ['\n'] := by
  unfold trimPartialLines
  have hlen : (xs ++ ['\n']).length - 1 = xs.length := by simp
  have hget : (xs ++ ['\n'])[xs.length]? = some '\n' := by
    rw [List.getElem?_append, if_neg (by omega)]
    simp
  rw [hlen, trimLoop_eq_some_of_getElem _ _ hget]
  show List.take (xs.length + 1) (xs ++ ['\n']) = xs ++ ['\n']
  have hl : (xs ++ ['\n']).length = xs.length + 1 := by simp
  rw [← hl, List.take_length]

theorem trimSpec_concat_newline (xs : List Char) : trimSpec (xs ++ ['\n']) = xs ++ ['\n'] := by
  unfold trimSpec
  rw [if_pos (by simp), List.reverse_concat', List.dropWhile_cons]
  simp

theorem trimSpec_concat_ne (xs : List Char) (x : Char) (hx : x ≠ '\n') (hmem : '\n' ∈ xs) :
    trimSpec (xs ++ [x]) = trimSpec xs := by
  unfold trimSpec
  have hx' : (x != '\n') = true := by simpa using hx
  rw [if_pos (by simp [hmem]), if_pos hmem, List.reverse_concat', List.dropWhile_cons, hx']
  simp

theorem trim_eq_trimSpec (s : List Char) : trimPartialLines s = trimSpec s := by
  induction s using List.reverseRecOn with
  | nil => decide
  | append_singleton xs x ih =>
    by_cases hx : x = '\n'
    · subst hx
      rw [trim_concat_newline, trimSpec_concat_newline]
    · by_cases hmem : '\n' ∈ xs
      · obtain ⟨m, hm⟩ : ∃ m, xs.length = m + 1 := by
          cases xs with
          | nil => simp at hmem
          | cons c l => exact ⟨l.length, rfl⟩
        unfold trimPartialLines
        have hlen : (xs ++ [x]).length - 1 = m + 1 := by simp [hm]
        have hget : (xs ++ [x])[m + 1]? = some x := by
          rw [List.getElem?_append, if_neg (by omega)]
          have h0 : m + 1 - xs.length = 0 := by omega
          rw [h0]
          rfl
        have hne : ¬(xs ++ [x])[m + 1]? = some '\n' := by
          rw [hget]
          intro hh
          injection hh with hh
          exact hx hh
        rw [hlen, trimLoop_succ_of_ne _ _ hne, trimLoop_concat xs x m (by omega)]
        obtain ⟨j, hj⟩ : ∃ j, trimLoop xs m = some j := by
          have h1 := trimLoop_ne_none_of_mem xs hmem
          rw [hm] at h1
          cases h : trimLoop xs m with
          | none => exact absurd h (by simpa using h1)
          | some j => exact ⟨j, rfl⟩
        rw [hj]
        show List.take (j + 1) (xs ++ [x]) = trimSpec (xs ++ [x])
        have hjle : j ≤ m := trimLoop_le xs m j hj
        rw [List.take_append_of_le_length (by omega), trimSpec_concat_ne xs x hx hmem, ← ih]
        unfold trimPartialLines
        have hm' : xs.length - 1 = m := by omega
        rw [hm', hj]
      · have hmem' : '\n' ∉ xs ++ [x] := by
          simp only [List.mem_append, List.mem_singleton]
          rintro (h1 | h1)
          · exact hmem h1
          · exact hx h1.symm
        rw [trim_of_not_mem _ hmem']
        unfold trimSpec
        rw [if_neg hmem']

theorem dropWhile_newline :
    ∀ l : List Char, '\n' ∈ l → ∃ t, l.dropWhile (fun c => c != '\n') = '\n' :: t := by
  intro l
  induction l with
  | nil => intro h; simp at h
  | cons c l ih =>
    intro h
    by_cases hc : c = '\n'
    · subst hc
      exact ⟨l, by simp [List.dropWhile_cons]⟩
    · have hl : '\n' ∈ l := by
        rcases List.mem_cons.mp h with h1 | h1
        · exact absurd h1.symm hc
        · exact h1
      obtain ⟨t, ht⟩ := ih hl
      have hc' : (c != '\n') = true := by simpa using hc
      exact ⟨t, by simp [List.dropWhile_cons, hc', ht]⟩

theorem trim_getLast_of_mem (s : List Char) (h : '\n' ∈ s) :
    (trimPartialLines s).getLast? = some '\n' := by
  rw [trim_eq_trimSpec]
  unfold trimSpec
  rw [if_pos h]
  obtain ⟨t, ht⟩ := dropWhile_newline s.reverse (by simpa using h)
  rw [ht, List.reverse_cons]
  exact List.getLast?_concat _

theorem trim_of_getLast (s : List Char) (h : s.getLast? = some '\n') : trimPartialLines s = s := by
  cases s using List.reverseRecOn with
  | nil => simp at h
  | append_singleton xs x =>
    rw [List.getLast?_concat] at h
    obtain rfl : x = '\n' := by simpa using h
    exact trim_concat_newline xs

theorem trim_isPrefixOf (s : List Char) : trimPartialLines s <+: s := by
  unfold trimPartialLines
  cases h : trimLoop s (s.length - 1) with
  | none => exact ⟨[], List.append_nil s⟩
  | some i => exact ⟨s.drop (i + 1), List.take_append_drop (i + 1) s⟩

/-! ### Lemmas about the read loop -/

theorem processLoop_didTruncate (limit : Nat) :
    ∀ (chunks : List (List Nat)) (csv : List Char) (b : Nat),
      b ≤ limit → limit < b + (chunks.map List.length).sum →
      (processLoop limit chunks csv b).didTruncate = true := by
  intro chunks
  induction chunks with
  | nil =>
    intro csv b hb hsum
    simp only [List.map_nil, List.sum_nil] at hsum
    omega
  | cons c rest ih =>
    intro csv b hb hsum
    rw [processLoop]
    by_cases hc : limit < b + c.length
    · rw [if_pos hc]
    · rw [if_neg hc]
      refine ih _ _ (Nat.le_of_not_lt hc) ?_
      simp only [List.map_cons, List.sum_cons] at hsum
      omega

theorem processLoop_csv_pref (limit : Nat) :
    ∀ (chunks : List (List Nat)) (csv : List Char) (b : Nat),
      (processLoop limit chunks csv b).csv <+: csv ++ (chunks.map decodeUtf8).flatten := by
  intro chunks
  induction chunks with
  | nil =>
    intro csv b
    simp only [List.map_nil, List.flatten_nil, List.append_nil]
    exact ⟨[], List.append_nil _⟩
  | cons c rest ih =>
    intro csv b
    rw [processLoop]
    by_cases hc : limit < b + c.length
    · rw [if_pos hc]
      obtain ⟨t, ht⟩ := trim_isPrefixOf (decodeUtf8 c)
      refine ⟨t ++ (rest.map decodeUtf8).flatten, ?_⟩
      simp only [List.map_cons, List.flatten_cons, ← List.append_assoc]
      rw [List.append_assoc csv (trimPartialLines (decodeUtf8 c)) t, ht]
    · rw [if_neg hc]
      have h := ih (csv ++ decodeUtf8 c) (b + c.length)
      simpa [List.map_cons, List.flatten_cons, List.append_assoc] using h

theorem processLoop_csv_getLast (limit : Nat) :
    ∀ (chunks : List (List Nat)) (csv : List Char) (b : Nat),
      b ≤ limit → limit < b + (chunks.map List.length).sum →
      (∀ c ∈ chunks, '\n' ∈ decodeUtf8 c) →
      (processLoop limit chunks csv b).csv.getLast? = some '\n' := by
  intro chunks
  induction chunks with
  | nil =>
    intro csv b hb hsum hnl
    simp only [List.map_nil, List.sum_nil] at hsum
    omega
  | cons c rest ih =>
    intro csv b hb hsum hnl
    rw [processLoop]
    by_cases hc : limit < b + c.length
    · rw [if_pos hc]
      show (csv ++ trimPartialLines (decodeUtf8 c)).getLast? = some '\n'
      rw [List.getLast?_append, trim_getLast_of_mem _ (hnl c (List.mem_cons_self c rest))]
      rfl
    · rw [if_neg hc]
      refine ih _ _ (Nat.le_of_not_lt hc) ?_ (fun d hd => hnl d (List.mem_cons_of_mem c hd))
      simp only [List.map_cons, List.sum_cons] at hsum
      omega

theorem processLoop_append (limit : Nat) :
    ∀ (front rest : List (List Nat)) (csv : List Char) (b : Nat),
      b + (front.map List.length).sum ≤ limit →
      processLoop limit (front ++ rest) csv b =
        processLoop limit rest (csv ++ (front.map decodeUtf8).flatten)
          (b + (front.map List.length).sum) := by
  intro front
  induction front with
  | nil =>
    intro rest csv b h
    simp
  | cons c front ih =>
    intro rest csv b h
    simp only [List.map_cons, List.sum_cons, List.flatten_cons, List.cons_append] at h ⊢
    rw [processLoop]
    have hc : ¬limit < b + c.length := by omega
    rw [if_neg hc, ih rest (csv ++ decodeUtf8 c) (b + c.length) (by omega)]
    have hx : csv ++ decodeUtf8 c ++ (front.map decodeUtf8).flatten =
        csv ++ (decodeUtf8 c ++ (front.map decodeUtf8).flatten) := by
      rw [List.append_assoc]
    have hb : b + c.length + (front.map List.length).sum =
        b + (c.length + (front.map List.length).sum) := by omega
    rw [hx, hb]

theorem processLoop_bytes (limit : Nat) :
    ∀ (chunks : List (List Nat)) (csv : List Char) (b : Nat), b ≤ limit →
      ((processLoop limit chunks csv b).didTruncate = false →
        (processLoop limit chunks csv b).bytesRead ≤ limit ∧
        (processLoop limit chunks csv b).bytesRead = b + (chunks.map List.length).sum) ∧
      ((processLoop limit chunks csv b).didTruncate = true →
        limit < (processLoop limit chunks csv b).bytesRead ∧
        ∃ k, k ≤ chunks.length ∧
          (processLoop limit chunks csv b).bytesRead =
            b + ((chunks.take k).map List.length).sum) := by
  intro chunks
  induction chunks with
  | nil =>
    intro csv b hb
    constructor
    · intro _
      exact ⟨hb, by simp [processLoop]⟩
    · intro h
      exact absurd h (by simp [processLoop])
  | cons c rest ih =>
    intro csv b hb
    rw [processLoop]
    by_cases hc : limit < b + c.length
    · rw [if_pos hc]
      constructor
      · intro h
        exact absurd h (by simp)
      · intro _
        refine ⟨hc, 1, by simp, ?_⟩
        simp
    · rw [if_neg hc]
      have h := ih (csv ++ decodeUtf8 c) (b + c.length) (Nat.le_of_not_lt hc)
      constructor
      · intro ht
        obtain ⟨h1, h2⟩ := h.1 ht
        refine ⟨h1, ?_⟩
        simp only [List.map_cons, List.sum_cons]
        omega
      · intro ht
        obtain ⟨h1, k, hk, h2⟩ := h.2 ht
        refine ⟨h1, k + 1, by simpa using hk, ?_⟩
        simp only [List.take_succ_cons, List.map_cons, List.sum_cons]
        omega

theorem processLoopEv_abort (limit : Nat) :
    ∀ (chunks : List (List Nat)) (csv : List Char) (b : Nat),
      b + (chunks.map List.length).sum ≤ limit →
      (processLoopEv limit chunks EndEvent.abort csv b).1 = Except.error EndEvent.abort := by
  intro chunks
  induction chunks with
  | nil =>
    intro csv b h
    rfl
  | cons c rest ih =>
    intro csv b h
    simp only [List.map_cons, List.sum_cons] at h
    rw [processLoopEv]
    have hc : ¬limit < b + c.length := by omega
    rw [if_neg hc]
    exact ih _ _ (by omega)

theorem processLoopEv_release (limit : Nat) :
    ∀ (chunks : List (List Nat)) (ending : EndEvent) (csv : List Char) (b : Nat),
      (∀ r, (processLoopEv limit chunks ending csv b).1 = Except.ok r →
        (processLoopEv limit chunks ending csv b).2 = 1) ∧
      (∀ e, (processLoopEv limit chunks ending csv b).1 = Except.error e →
        (processLoopEv limit chunks ending csv b).2 = 0) := by
  intro chunks
  induction chunks with
  | nil =>
    intro ending csv b
    cases ending with
    | done => exact ⟨fun _ _ => rfl, fun _ he => Except.noConfusion he⟩
    | fail => exact ⟨fun _ hr => Except.noConfusion hr, fun _ _ => rfl⟩
    | abort => exact ⟨fun _ hr => Except.noConfusion hr, fun _ _ => rfl⟩
  | cons c rest ih =>
    intro ending csv b
    rw [processLoopEv]
    by_cases hc : limit < b + c.length
    · rw [if_pos hc]
      exact ⟨fun _ _ => rfl, fun _ he => Except.noConfusion he⟩
    · rw [if_neg hc]
      exact ih ending (csv ++ decodeUtf8 c) (b + c.length)

end QueryReader


/-! ### Claim theorems -/

namespace QueryReader

/-- C1 (counterexample): for the payload "abc" (3 bytes, no newline) delivered
as one chunk with cap 1, `processResponse` sets the truncation flag, but the
accumulated text is "abc": it is nonempty, does not end with a newline, and
equals the full decoded payload — so it is not a strict prefix of it.  The
claim fails on this input. -/
theorem processResponse_over_cap_counterexample :
    (processResponse 1 [[97, 98, 99]]).didTruncate = true ∧
    (processResponse 1 [[97, 98, 99]]).csv = decodeUtf8 [97, 98, 99] ∧
    (processResponse 1 [[97, 98, 99]]).csv ≠ [] ∧
    (processResponse 1 [[97, 98, 99]]).csv.getLast? ≠ some '\n' := by
  decide

/-- C1 (amended): for every payload whose total byte size exceeds the byte
cap, `processResponse` returns a Result whose truncation flag is true and
whose accumulated text is a prefix (not necessarily strict) of the
concatenation of the per-chunk decoded texts; if every chunk's decoded text
contains a newline character, the accumulated text ends with a newline. -/
theorem processResponse_over_cap (limit : Nat) (chunks : List (List Nat))
    (h : limit < (chunks.map List.length).sum) :
    (processResponse limit chunks).didTruncate = true ∧
    (processResponse limit chunks).csv <+: (chunks.map decodeUtf8).flatten ∧
    ((∀ c ∈ chunks, '\n' ∈ decodeUtf8 c) →
      (processResponse limit chunks).csv.getLast? = some '\n') := by
  refine ⟨?_, ?_, ?_⟩
  · exact processLoop_didTruncate limit chunks [] 0 (Nat.zero_le _) (by omega)
  · have h2 := processLoop_csv_pref limit chunks [] 0
    simpa using h2
  · intro hnl
    exact processLoop_csv_getLast limit chunks [] 0 (Nat.zero_le _) (by omega) hnl

/-- Witness for C1's amended theorem at the one-chunk payload "a\n", cap 1. -/
theorem processResponse_over_cap_witness :
    (processResponse 1 [[97, 10]]).didTruncate = true ∧
    (processResponse 1 [[97, 10]]).csv <+: ([[97, 10]].map decodeUtf8).flatten ∧
    (processResponse 1 [[97, 10]]).csv.getLast? = some '\n' := by
  have h := processResponse_over_cap 1 [[97, 10]] (by decide)
  exact ⟨h.1, h.2.1, h.2.2 (by decide)⟩

/-- C2 (code bug): the payload "é" (bytes 0xC3 0xA9, total 2 ≤ cap 100) split
into two chunks is returned with truncation flag false, but the accumulated
text is two replacement characters, not the full decoded payload "é":
`decoder.decode` is called per chunk without the streaming option, so the
split multi-byte character is mangled. -/
theorem processResponse_under_cap_split_multibyte :
    (processResponse 100 [[0xC3], [0xA9]]).didTruncate = false ∧
    (processResponse 100 [[0xC3], [0xA9]]).csv = [replacementChar, replacementChar] ∧
    decodeUtf8 ([0xC3] ++ [0xA9]) = ['é'] ∧
    (processResponse 100 [[0xC3], [0xA9]]).csv ≠ decodeUtf8 ([0xC3] ++ [0xA9]) := by
  decide

/-- C3 (counterexample): when the very first read rejects with a transport
error, the loop exits via the rejection and the error is reported with zero
`reader.cancel()` calls: the byte source is not released on this exit path,
and in particular not before the error is reported. -/
theorem processLoopEv_fail_counterexample :
    (processLoopEv 100 [] EndEvent.fail [] 0).1 = Except.error EndEvent.fail ∧
    (processLoopEv 100 [] EndEvent.fail [] 0).2 = 0 :=
  ⟨rfl, rfl⟩

/-- C3 (amended): the byte source is released exactly once on the exit paths
that produce a Result (normal end-of-stream and cap-triggered truncation);
when the loop exits by a rejected read (source error or cancellation), the
error propagates with zero release calls — there is no finally-equivalent
around the loop. -/
theorem processLoopEv_release_count (limit : Nat) (chunks : List (List Nat))
    (ending : EndEvent) :
    (∀ r, (processLoopEv limit chunks ending [] 0).1 = Except.ok r →
      (processLoopEv limit chunks ending [] 0).2 = 1) ∧
    (∀ e, (processLoopEv limit chunks ending [] 0).1 = Except.error e →
      (processLoopEv limit chunks ending [] 0).2 = 0) :=
  processLoopEv_release limit chunks ending [] 0

/-- Witness for C3's amended theorem: a clean end-of-stream releases once, a
first-read failure releases zero times. -/
theorem processLoopEv_release_count_witness :
    (processLoopEv 100 [] EndEvent.done [] 0).2 = 1 ∧
    (processLoopEv 100 [] EndEvent.fail [] 0).2 = 0 :=
  ⟨(processLoopEv_release_count 100 [] EndEvent.done).1 ⟨[], false, 0⟩ rfl,
   (processLoopEv_release_count 100 [] EndEvent.fail).2 EndEvent.fail rfl⟩

/-- C4 (counterexample): for the 12-byte payload "a,b\nc,d\ne,f\n" in one
chunk with cap 8, the claimed accumulated text "a,b\nc,d\n" is wrong. -/
theorem processResponse_scenarioB_counterexample :
    (processResponse 8 [sampleBytes]).csv ≠ "a,b\nc,d\n".toList := by
  decide

/-- C4 (amended): for the payload "a,b\nc,d\ne,f\n" delivered as one chunk
with cap 8, the counter reaches 12 > 8 on that chunk; the chunk ends with a
newline, so the line-boundary scanner trims nothing, and the Result is
text "a,b\nc,d\ne,f\n", truncated true, bytes 12. -/
theorem processResponse_scenarioB :
    processResponse 8 [sampleBytes] = ⟨"a,b\nc,d\ne,f\n".toList, true, 12⟩ := by
  decide

/-- C5 (code bug): decoding state does not persist between chunks.  The
accumulated text for the split payload is the concatenation of the two
independent decodes — two replacement characters — which differs from the
decoding of the concatenated byte stream, because `decoder.decode` is called
without the streaming option. -/
theorem decode_state_not_persistent :
    (processResponse 100 [[0xC3], [0xA9]]).csv =
      decodeUtf8 [0xC3] ++ decodeUtf8 [0xA9] ∧
    decodeUtf8 [0xC3] ++ decodeUtf8 [0xA9] ≠ decodeUtf8 ([0xC3] ++ [0xA9]) := by
  decide

/-- C6: the line-boundary scanner returns the longest prefix of the fragment
ending at (and including) the last newline — the `trimSpec` reading of the
spec — and a fragment with no newline (in particular an empty one) is
returned unchanged rather than failing. -/
theorem trimPartialLines_spec (s : List Char) :
    trimPartialLines s = trimSpec s ∧ ('\n' ∉ s → trimPartialLines s = s) :=
  ⟨trim_eq_trimSpec s, trim_of_not_mem s⟩

/-- Witness for C6 at the newline-free fragment "abc". -/
theorem trimPartialLines_spec_witness :
    trimPartialLines "abc".toList = trimSpec "abc".toList ∧
    trimPartialLines "abc".toList = "abc".toList :=
  ⟨(trimPartialLines_spec "abc".toList).1,
   (trimPartialLines_spec "abc".toList).2 (by decide)⟩

/-- C7: scanning an already newline-terminated fragment returns it unchanged,
and the scanner is idempotent on every fragment. -/
theorem trimPartialLines_idempotent (s : List Char) :
    (s.getLast? = some '\n' → trimPartialLines s = s) ∧
    trimPartialLines (trimPartialLines s) = trimPartialLines s := by
  refine ⟨trim_of_getLast s, ?_⟩
  by_cases h : '\n' ∈ s
  · exact trim_of_getLast _ (trim_getLast_of_mem s h)
  · rw [trim_of_not_mem s h, trim_of_not_mem s h]

/-- Witness for C7 at "ab\n" (newline-terminated) and "ab\ncd". -/
theorem trimPartialLines_idempotent_witness :
    trimPartialLines "ab\n".toList = "ab\n".toList ∧
    trimPartialLines (trimPartialLines "ab\ncd".toList) =
      trimPartialLines "ab\ncd".toList :=
  ⟨(trimPartialLines_idempotent "ab\n".toList).1 (by decide),
   (trimPartialLines_idempotent "ab\ncd".toList).2⟩

/-- C8: if the truncation flag is false, total bytes read is at most the cap
and counts every byte of the payload; if the flag is true, bytes read exceeds
the cap and equals the total size of the chunks observed up to and including
the truncating one — whole chunks, including any discarded tail.  Bytes read
is a natural number, hence nonnegative. -/
theorem processResponse_bytes_invariant (limit : Nat) (chunks : List (List Nat)) :
    ((processResponse limit chunks).didTruncate = false →
      (processResponse limit chunks).bytesRead ≤ limit ∧
      (processResponse limit chunks).bytesRead = (chunks.map List.length).sum) ∧
    ((processResponse limit chunks).didTruncate = true →
      limit < (processResponse limit chunks).bytesRead ∧
      ∃ k, k ≤ chunks.length ∧
        (processResponse limit chunks).bytesRead =
          ((chunks.take k).map List.length).sum) := by
  have h := processLoop_bytes limit chunks [] 0 (Nat.zero_le _)
  constructor
  · intro ht
    obtain ⟨h1, h2⟩ := h.1 ht
    exact ⟨h1, by simpa using h2⟩
  · intro ht
    obtain ⟨h1, k, hk, h2⟩ := h.2 ht
    exact ⟨h1, k, hk, by simpa using h2⟩

/-- Witness for C8 at the sample payload with caps 8 and 100. -/
theorem processResponse_bytes_invariant_witness :
    8 < (processResponse 8 [sampleBytes]).bytesRead ∧
    (processResponse 100 [sampleBytes]).bytesRead =
      ([sampleBytes].map List.length).sum :=
  ⟨((processResponse_bytes_invariant 8 [sampleBytes]).2 (by decide)).1,
   ((processResponse_bytes_invariant 100 [sampleBytes]).1 (by decide)).2⟩

/-- C9 (counterexample): cancellation was requested — the next read would
reject with AbortError — but the byte cap is crossed on the chunk already
delivered, so the loop breaks before observing the abort and the result
producer settles with the partial truncated Result, not CancellationError. -/
theorem runQueryOutcome_abort_counterexample :
    runQueryOutcome 8 [sampleBytes] EndEvent.abort =
      Except.ok ⟨"a,b\nc,d\ne,f\n".toList, true, 12⟩ := by
  rfl

/-- C9 (amended): if cancellation is observed at a pending read — before any
chunk or mid-stream — and the byte cap has not been crossed by the chunks
already delivered, the result producer settles with CancellationError, never
with a transport error and never with a partial Result; if the cap was
crossed first, the truncated Result is returned instead. -/
theorem runQueryOutcome_abort (limit : Nat) (chunks : List (List Nat))
    (h : (chunks.map List.length).sum ≤ limit) :
    runQueryOutcome limit chunks EndEvent.abort =
      Except.error QueryError.cancellation := by
  unfold runQueryOutcome
  rw [processLoopEv_abort limit chunks [] 0 (by omega)]

/-- Witness for C9's amended theorem: scenario D — abort observed while
waiting for the second chunk after a first chunk "a,b\n". -/
theorem runQueryOutcome_abort_witness :
    runQueryOutcome 100 [[97, 44, 98, 10]] EndEvent.abort =
      Except.error QueryError.cancellation :=
  runQueryOutcome_abort 100 [[97, 44, 98, 10]] (by decide)

/-- C10: if the chunk on which the byte cap is crossed decodes to text ending
with a newline, no bytes are discarded: the Result has the truncation flag
true and its accumulated text equals the concatenation of the decoded chunks
received so far (chunks after the truncating one are never read), with the
byte counter covering exactly the observed chunks. -/
theorem processResponse_newline_chunk_no_discard (limit : Nat)
    (front : List (List Nat)) (c : List Nat) (rest : List (List Nat))
    (hfront : (front.map List.length).sum ≤ limit)
    (hcross : limit < (front.map List.length).sum + c.length)
    (hnl : (decodeUtf8 c).getLast? = some '\n') :
    processResponse limit (front ++ c :: rest) =
      ⟨((front ++ [c]).map decodeUtf8).flatten, true,
        (front.map List.length).sum + c.length⟩ := by
  unfold processResponse
  rw [processLoop_append limit front (c :: rest) [] 0 (by omega), processLoop,
    if_pos (by omega : limit < 0 + (front.map List.length).sum + c.length),
    trim_of_getLast _ hnl]
  simp only [RunQueryResult.mk.injEq]
  refine ⟨?_, trivial, by omega⟩
  simp [List.map_append, List.flatten_append]

/-- Witness for C10: the sample payload as the single, newline-terminated
truncating chunk with cap 8. -/
theorem processResponse_newline_chunk_no_discard_witness :
    processResponse 8 ([] ++ sampleBytes :: []) =
      ⟨(([] ++ [sampleBytes]).map decodeUtf8).flatten, true,
        (([] : List (List Nat)).map List.length).sum + sampleBytes.length⟩ :=
  processResponse_newline_chunk_no_discard 8 [] sampleBytes []
    (by decide) (by decide) (by decide)

end QueryReader
